import Mathlib

set_option maxHeartbeats 1000000

/-!
Verification of the inline markup resolver of the `obsidian-listening`
plugin (`parseAndRenderLine` / `applyRules` in `src/main.ts`).

The resolver takes one line of text, discovers candidate matches of six
delimiter rules (each rule is the regex `D(.*?)D` for a delimiter `D`,
scanned with the JavaScript global flag), sorts candidates by start offset
ascending then match length descending (a stable sort, so equal keys keep
rule-table order), greedily selects non-overlapping ranges, and emits
literal text nodes for gaps and styled container nodes (recursively
resolved captured payloads) for selected ranges.

Strings are embedded as `List Char`.  The recursion of `applyRules` is
embedded as a fuel-indexed function `resolveO` (fuel exhaustion returns
`none`); `resolve` runs it with fuel `length + 1`, which is proved
sufficient (`resolveO_eq_resolve`), and `resolve_unfold` proves that
`resolve` satisfies exactly the recursion equation of the source.
-/

/-- A markup rule of the rule table in `parseAndRenderLine`
(src/main.ts lines 227-238): a delimiter (the rule's regex is
`delim(.*?)delim` with non-greedy capture), an optional HTML tag and an
optional inline style. -/
structure Rule where
  delim : List Char
  tag : Option String
  style : Option String
deriving DecidableEq, Repr

/-- The fixed rule table, in source order (src/main.ts lines 232-237). -/
def rules : List Rule :=
  [ ⟨"~~".toList, some "del", none⟩,
    ⟨"__".toList, some "u", none⟩,
    ⟨"**".toList, some "strong", none⟩,
    ⟨"*".toList, some "em", none⟩,
    ⟨"++".toList, none, some "font-size: 1.5em;"⟩,
    ⟨"--".toList, none, some "font-size: 0.5em;"⟩ ]

/-- Whether a character is matched by the JavaScript regex `.` without the
`s` flag: every character except a line terminator. -/
def isDot (c : Char) : Bool :=
  c != '\n' && c != '\r' && c != Char.ofNat 0x2028 && c != Char.ofNat 0x2029

/-- Non-greedy search for the closing delimiter: `lazyClose d s` splits
`s` as `payload ++ d ++ rest` with the shortest possible `payload` whose
characters are all matched by `.`, returning `some payload`, or `none` if
no such split exists.  This is the semantics of `(.*?)d` applied to `s`. -/
def lazyClose (d : List Char) : List Char → Option (List Char)
  | [] => none
  | c :: s =>
    if d.isPrefixOf (c :: s) then some []
    else if isDot c then (lazyClose d s).map (c :: ·)
    else none

/-- Semantics of the regex `d(.*?)d` anchored at position `i` of `t`:
`some (len, payload)` when the delimiter occurs at `i` and a closing
occurrence follows after the shortest valid payload; `len` is the length
of the whole match (`match[0].length` in the source) and `payload` is the
capture (`match[1]`). -/
def matchAt (d t : List Char) (i : Nat) : Option (Nat × List Char) :=
  if d.isPrefixOf (t.drop i) then
    match lazyClose d (t.drop (i + d.length)) with
    | some pay => some (2 * d.length + pay.length, pay)
    | none => none
  else none

/-- The scanning loop of `regex.exec` with the `g` flag: try the pattern
at position `i`, on success record the match and continue right after it,
on failure slide to `i + 1`; stop past the end of the text.  `fuel` is a
totalization bound; `scanRule` supplies `t.length + 1`, which is enough
fuel because every iteration either stops or advances `i`. -/
def scanFromAux (d t : List Char) : Nat → Nat → List (Nat × Nat × List Char)
  | 0, _ => []
  | fuel + 1, i =>
    match matchAt d t i with
    | some (len, pay) => (i, len, pay) :: scanFromAux d t fuel (i + len)
    | none => if i < t.length then scanFromAux d t fuel (i + 1) else []

/-- All matches of one rule's pattern over the whole text, in scan order
(the `while ((match = regex.exec(text)) !== null)` loop of the source). -/
def scanRule (d t : List Char) : List (Nat × Nat × List Char) :=
  scanFromAux d t (t.length + 1) 0

/-- A candidate match (an element of `allMatches` in the source): start
offset, length of `match[0]`, the position of the originating rule in the
rule table, the rule itself, and the captured payload `match[1]`. -/
structure Cand where
  index : Nat
  length : Nat
  ruleIdx : Nat
  rule : Rule
  cap : List Char
deriving DecidableEq, Repr

/-- The flat candidate list across all rules, grouped by rule in
rule-table order (the `rules.forEach` pushing into `allMatches`). -/
def allMatches (t : List Char) : List Cand :=
  (rules.enum).flatMap fun ir =>
    (scanRule ir.2.delim t).map fun m => ⟨m.1, m.2.1, ir.1, ir.2, m.2.2⟩

/-- The sort comparator `(a, b) => a.index - b.index || b.length - a.length`
as a strict order: `true` iff `a` must come strictly before `b`. -/
def ltCand (a b : Cand) : Bool :=
  decide (a.index < b.index) ||
    (a.index == b.index && decide (b.length < a.length))

/-- Stable insertion used to model `Array.prototype.sort` (which is
specified to be stable): a new element goes after every already placed
element it does not strictly precede. -/
def insertCand (x : Cand) : List Cand → List Cand
  | [] => [x]
  | y :: l => if ltCand x y then x :: y :: l else y :: insertCand x l

/-- Stable sort of the candidate list by the source's comparator. -/
def sortCands (l : List Cand) : List Cand :=
  l.foldl (fun acc x => insertCand x acc) []

/-- The candidate list after `allMatches.sort(...)` (src/main.ts line 266). -/
def sortedCands (t : List Char) : List Cand :=
  sortCands (allMatches t)

/-- The overlap test of the source: some already accepted range shares a
character position with `[s, e)`
(`Math.max(start, range.start) < Math.min(end, range.end)`). -/
def isOverlapping (s e : Nat) (ranges : List (Nat × Nat)) : Bool :=
  ranges.any fun r => decide (max s r.1 < min e r.2)

/-- One element of the `parts` array of the source: either a literal
substring, or an accepted match (its captured payload and its rule). -/
inductive Seg where
  | lit (s : List Char)
  | mtch (cap : List Char) (rule : Rule)
deriving DecidableEq, Repr

/-- The selection loop over the sorted candidates (src/main.ts lines
277-289), carrying `lastIndex`, the `parts` array and `processedRanges`;
returns the final triple. -/
def selLoop (t : List Char) :
    List Cand → Nat → List Seg → List (Nat × Nat) →
    List Seg × List (Nat × Nat) × Nat
  | [], li, ps, rs => (ps, rs, li)
  | c :: cs, li, ps, rs =>
    if isOverlapping c.index (c.index + c.length) rs then
      selLoop t cs li ps rs
    else
      selLoop t cs (c.index + c.length)
        ((if li < c.index then
            ps ++ [Seg.lit ((t.drop li).take (c.index - li))]
          else ps) ++ [Seg.mtch c.cap c.rule])
        (rs ++ [(c.index, c.index + c.length)])

/-- The full `parts` array of one `applyRules` invocation: the selection
loop's parts plus the trailing literal (src/main.ts lines 291-293). -/
def partsOf (t : List Char) : List Seg :=
  let r := selLoop t (sortedCands t) 0 [] []
  if r.2.2 < t.length then r.1 ++ [Seg.lit (t.drop r.2.2)] else r.1

/-- The `processedRanges` array at the end of the selection loop. -/
def selectedRanges (t : List Char) : List (Nat × Nat) :=
  (selLoop t (sortedCands t) 0 [] []).2.1

/-- A render node: a DOM text node, or an element
(`createEl(rule.tag || "span")` with the rule's inline style) holding the
recursively resolved children. -/
inductive RNode where
  | text (s : List Char)
  | elem (tag : String) (style : Option String) (children : List RNode)
deriving Repr

/-- The element tag chosen by the source: `rule.tag || "span"`. -/
def tagOf (r : Rule) : String := r.tag.getD "span"

/-- Emission of one part given a resolver for payloads (the
`parts.forEach` of src/main.ts lines 295-306), in the fuel-indexed
`Option` form: `none` propagates fuel exhaustion. -/
def emitPartO (f : List Char → Option (List RNode)) : Seg → Option RNode
  | Seg.lit s => some (RNode.text s)
  | Seg.mtch cap r => (f cap).map (RNode.elem (tagOf r) r.style)

/-- Fuel-indexed form of `applyRules`: each recursive call into a captured
payload consumes one unit of fuel, and exhausted fuel yields `none`.
Since every payload is strictly shorter than its text, fuel
`t.length + 1` always suffices (`resolveO_eq_resolve`). -/
def resolveO : Nat → List Char → Option (List RNode)
  | 0, _ => none
  | fuel + 1, t => (partsOf t).mapM (emitPartO (resolveO fuel))

/-- The resolver `applyRules` itself: the node sequence produced for one
line of text.  Defined by running `resolveO` with sufficient fuel;
`resolve_unfold` proves it satisfies the recursion equation of the
source. -/
def resolve (t : List Char) : List RNode :=
  (resolveO (t.length + 1) t).getD []

/-- Emission of one part in direct form. -/
def emitPart : Seg → RNode
  | Seg.lit s => RNode.text s
  | Seg.mtch cap r => RNode.elem (tagOf r) r.style (resolve cap)

/-- The text a part stands for in the scanned string: a literal stands
for itself, an accepted match for its payload wrapped in its rule's
delimiters. -/
def partText : Seg → List Char
  | Seg.lit s => s
  | Seg.mtch cap r => r.delim ++ cap ++ r.delim

/-- The delimiter pair that produced a rendered element, recovered from
its tag and style; the six rules have pairwise distinct (tag, style)
outputs, so this inverts the rule table. -/
def delimOfTag (tag : String) (style : Option String) : List Char :=
  if tag = "del" then "~~".toList
  else if tag = "u" then "__".toList
  else if tag = "strong" then "**".toList
  else if tag = "em" then "*".toList
  else if style = some "font-size: 1.5em;" then "++".toList
  else if style = some "font-size: 0.5em;" then "--".toList
  else []

mutual

/-- The input text reconstructed from a render node: leaf literal
characters with the matched delimiter pair reinserted around every styled
container. -/
def reconstruct : RNode → List Char
  | RNode.text s => s
  | RNode.elem tag style children =>
    delimOfTag tag style ++ reconstructList children ++ delimOfTag tag style

/-- `reconstruct` concatenated over a node sequence. -/
def reconstructList : List RNode → List Char
  | [] => []
  | n :: ns => reconstruct n ++ reconstructList ns

end

/-- Concatenation of all leaf literal characters of a node sequence, in
order. -/
def leafList : List RNode → List Char
  | [] => []
  | RNode.text s :: ns => s ++ leafList ns
  | RNode.elem _ _ children :: ns => leafList children ++ leafList ns

/-- Boolean prefix test unpacked: the tested list starts with `d`. -/
theorem isPrefixOf_exists {d l : List Char} (h : d.isPrefixOf l = true) :
    ∃ r, l = d ++ r := by
  induction d generalizing l with
  | nil => exact ⟨l, rfl⟩
  | cons a as ih =>
    cases l with
    | nil => simp [List.isPrefixOf] at h
    | cons b bs =>
      simp only [List.isPrefixOf, Bool.and_eq_true, beq_iff_eq] at h
      obtain ⟨r, hr⟩ := ih h.2
      exact ⟨r, by simp [h.1, hr]⟩

/-- A successful `lazyClose` really splits its input as
`payload ++ delimiter ++ rest`. -/
theorem lazyClose_spec {d : List Char} :
    ∀ {s pay : List Char}, lazyClose d s = some pay →
      ∃ rest, s = pay ++ d ++ rest := by
  intro s
  induction s with
  | nil => intro pay h; simp [lazyClose] at h
  | cons c s ih =>
    intro pay h
    rw [lazyClose] at h
    split at h
    · next hp =>
      obtain ⟨r, hr⟩ := isPrefixOf_exists hp
      obtain rfl : ([] : List Char) = pay := by simpa using h
      exact ⟨r, by simpa using hr⟩
    · split at h
      · rw [Option.map_eq_some'] at h
        obtain ⟨pay', hpay', rfl⟩ := h
        obtain ⟨rest, hrest⟩ := ih hpay'
        exact ⟨rest, by simp [hrest]⟩
      · simp at h

/-- What a successful anchored match means: the match length is the two
delimiters plus the payload, the matched slice of the text is
`d ++ payload ++ d`, and the match lies inside the text. -/
theorem matchAt_spec {d t : List Char} {i : Nat} {m : Nat × List Char}
    (hd : d ≠ []) (h : matchAt d t i = some m) :
    m.1 = 2 * d.length + m.2.length ∧
    (t.drop i).take m.1 = d ++ m.2 ++ d ∧
    i + m.1 ≤ t.length := by
  rw [matchAt] at h
  split at h
  case isFalse => simp at h
  case isTrue hp =>
    obtain ⟨r1, hr1⟩ := isPrefixOf_exists hp
    split at h
    case h_2 => simp at h
    case h_1 pay hlc =>
      injection h with h2
      subst h2
      have hdr : t.drop (i + d.length) = r1 := by
        rw [← List.drop_drop, hr1, List.drop_left]
      rw [hdr] at hlc
      obtain ⟨rest, rfl⟩ := lazyClose_spec hlc
      have hsplit : t.drop i = (d ++ pay ++ d) ++ rest := by
        rw [hr1]; simp [List.append_assoc]
      refine ⟨rfl, ?_, ?_⟩
      · rw [hsplit]
        exact List.take_left' (by simp only [List.length_append]; omega)
      · have hlen2 : (t.drop i).length = t.length - i := List.length_drop i t
        rw [hsplit] at hlen2
        simp only [List.length_append] at hlen2
        have hile : i ≤ t.length := by
          by_contra hgt
          have hnil : t.drop i = [] := List.drop_eq_nil_of_le (by omega)
          rw [hsplit] at hnil
          rcases List.append_eq_nil.mp hnil with ⟨h1, -⟩
          rcases List.append_eq_nil.mp h1 with ⟨h2, -⟩
          rcases List.append_eq_nil.mp h2 with ⟨h3, -⟩
          exact hd h3
        omega

/-- Every triple recorded by the scanning loop is a genuine anchored
match of the pattern at its recorded position. -/
theorem scanFromAux_mem {d t : List Char} :
    ∀ {fuel i : Nat} {m : Nat × Nat × List Char},
      m ∈ scanFromAux d t fuel i → matchAt d t m.1 = some (m.2.1, m.2.2) := by
  intro fuel
  induction fuel with
  | zero => intro i m h; simp [scanFromAux] at h
  | succ fuel ih =>
    intro i m h
    rw [scanFromAux] at h
    split at h
    · next len pay heq =>
      rcases List.mem_cons.mp h with rfl | h'
      · simpa using heq
      · exact ih h'
    · split at h
      · exact ih h
      · simp at h

/-- The second component of an `enumFrom` element is an element of the
underlying list. -/
theorem enumFrom_snd_mem {α : Type _} :
    ∀ {l : List α} {n : Nat} {p : Nat × α}, p ∈ l.enumFrom n → p.2 ∈ l := by
  intro l
  induction l with
  | nil => intro n p h; simp [List.enumFrom] at h
  | cons a l ih =>
    intro n p h
    rw [List.enumFrom] at h
    rcases List.mem_cons.mp h with rfl | h'
    · simp
    · simp [ih h']

/-- What membership in `allMatches` guarantees about a candidate: its
stored match data is a genuine anchored match of its rule's pattern, and
its rule/rule-index pair comes from the rule table. -/
def CandGood (t : List Char) (c : Cand) : Prop :=
  matchAt c.rule.delim t c.index = some (c.length, c.cap) ∧
  (c.ruleIdx, c.rule) ∈ rules.enum

theorem allMatches_good {t : List Char} {c : Cand} (h : c ∈ allMatches t) :
    CandGood t c := by
  rw [allMatches, List.mem_flatMap] at h
  obtain ⟨ir, hir, hc⟩ := h
  rw [List.mem_map] at hc
  obtain ⟨m, hm, rfl⟩ := hc
  exact ⟨scanFromAux_mem hm, by simpa using hir⟩

/-- Every rule-table entry has a nonempty delimiter and belongs to the
table. -/
theorem rules_enum_delim :
    ∀ p ∈ rules.enum, p.2.delim ≠ [] ∧ 1 ≤ p.2.delim.length ∧ p.2 ∈ rules := by
  decide

/-- The enumerated rule table is ordered by index. -/
theorem rules_enum_le :
    List.Pairwise (fun p q : Nat × Rule => p.1 ≤ q.1) rules.enum := by
  decide

/-- The ordering the sorted candidate list satisfies: start offset
ascending, ties broken by match length descending, remaining ties broken
by rule-table position with the earlier rule first. -/
def candOrder (a b : Cand) : Prop :=
  a.index < b.index ∨
    (a.index = b.index ∧
      (b.length < a.length ∨ (a.length = b.length ∧ a.ruleIdx ≤ b.ruleIdx)))

theorem ltCand_iff {a b : Cand} :
    ltCand a b = true ↔
      a.index < b.index ∨ (a.index = b.index ∧ b.length < a.length) := by
  simp [ltCand]

theorem ltCand_eq_false {a b : Cand} :
    ltCand a b = false ↔
      ¬(a.index < b.index ∨ (a.index = b.index ∧ b.length < a.length)) := by
  rw [← ltCand_iff, Bool.not_eq_true, Bool.eq_false_iff, ne_eq, Bool.not_eq_true]

theorem insertCand_mem {x : Cand} :
    ∀ {l : List Cand} {a : Cand}, a ∈ insertCand x l → a = x ∨ a ∈ l := by
  intro l
  induction l with
  | nil => intro a h; simpa [insertCand] using h
  | cons y l ih =>
    intro a h
    rw [insertCand] at h
    split at h
    · rcases List.mem_cons.mp h with rfl | h'
      · exact Or.inl rfl
      · exact Or.inr h'
    · rcases List.mem_cons.mp h with rfl | h'
      · exact Or.inr (by simp)
      · rcases ih h' with rfl | h''
        · exact Or.inl rfl
        · exact Or.inr (by simp [h''])

/-- Stable insertion keeps the combined order, provided the inserted
element's rule index is at least that of every element already placed
(which holds because the unsorted list is grouped by rule index). -/
theorem insertCand_pairwise {x : Cand} :
    ∀ {l : List Cand}, List.Pairwise candOrder l →
      (∀ y ∈ l, y.ruleIdx ≤ x.ruleIdx) →
      List.Pairwise candOrder (insertCand x l) := by
  intro l
  induction l with
  | nil => intro _ _; simp [insertCand]
  | cons y l ih =>
    intro hp hr
    rw [insertCand]
    split
    · next hlt =>
      have hxy := ltCand_iff.mp hlt
      apply List.Pairwise.cons _ hp
      intro z hz
      rcases List.mem_cons.mp hz with rfl | hz'
      · unfold candOrder; omega
      · have hyz := List.rel_of_pairwise_cons hp hz'
        unfold candOrder at hyz ⊢; omega
    · next hlt =>
      have hxyF := ltCand_eq_false (a := x) (b := y) |>.mp (by
        cases hb : ltCand x y
        · rfl
        · exact absurd hb hlt)
      apply List.Pairwise.cons
      · intro z hz
        rcases insertCand_mem hz with rfl | hz'
        · cases hb : ltCand y z with
          | true => have := ltCand_iff.mp hb; unfold candOrder; omega
          | false =>
            have hyxF := ltCand_eq_false.mp hb
            have hrz := hr y (by simp)
            unfold candOrder; omega
        · exact List.rel_of_pairwise_cons hp hz'
      · exact ih (List.Pairwise.of_cons hp) (fun y' hy' => hr y' (by simp [hy']))

theorem foldl_insert_pairwise :
    ∀ {l acc : List Cand},
      List.Pairwise (fun a b : Cand => a.ruleIdx ≤ b.ruleIdx) l →
      List.Pairwise candOrder acc →
      (∀ a ∈ acc, ∀ b ∈ l, a.ruleIdx ≤ b.ruleIdx) →
      List.Pairwise candOrder (l.foldl (fun acc x => insertCand x acc) acc) := by
  intro l
  induction l with
  | nil => intro acc _ h _; simpa using h
  | cons x l ih =>
    intro acc hl hacc hcross
    rw [List.foldl_cons]
    apply ih (List.Pairwise.of_cons hl)
    · exact insertCand_pairwise hacc (fun y hy => hcross y hy x (by simp))
    · intro a ha b hb
      rcases insertCand_mem ha with rfl | ha'
      · exact List.rel_of_pairwise_cons hl hb
      · exact hcross a ha' b (by simp [hb])

theorem insertCand_perm (x : Cand) :
    ∀ l : List Cand, (insertCand x l).Perm (x :: l) := by
  intro l
  induction l with
  | nil => simp [insertCand]
  | cons y l ih =>
    rw [insertCand]
    split
    · exact List.Perm.refl _
    · exact ((ih.cons y).trans (List.Perm.swap x y l))

theorem foldl_insert_perm :
    ∀ (l acc : List Cand),
      (l.foldl (fun acc x => insertCand x acc) acc).Perm (acc ++ l) := by
  intro l
  induction l with
  | nil => intro acc; simp
  | cons x l ih =>
    intro acc
    rw [List.foldl_cons]
    refine ((ih (insertCand x acc)).trans ?_)
    refine (((insertCand_perm x acc).append_right l).trans ?_)
    exact List.perm_middle.symm

theorem sortCands_perm (l : List Cand) : (sortCands l).Perm l := by
  simpa using foldl_insert_perm l []

theorem sortedCands_mem {t : List Char} {c : Cand} (h : c ∈ sortedCands t) :
    c ∈ allMatches t :=
  ((sortCands_perm (allMatches t)).mem_iff).mp h

/-- A `Pairwise` relation survives `flatMap` when it holds inside every
block and across blocks related by the outer relation. -/
theorem flatMap_pairwise {α β : Type _} {R : β → β → Prop} {S : α → α → Prop}
    (f : α → List β) :
    ∀ {l : List α}, List.Pairwise S l →
      (∀ a ∈ l, ∀ x ∈ f a, ∀ y ∈ f a, R x y) →
      (∀ a b, S a b → ∀ x ∈ f a, ∀ y ∈ f b, R x y) →
      List.Pairwise R (l.flatMap f) := by
  intro l
  induction l with
  | nil => intro _ _ _; simp
  | cons a l ih =>
    intro hS hin hcross
    rw [List.flatMap_cons, List.pairwise_append]
    refine ⟨List.pairwise_of_forall_mem_list (hin a (by simp)),
      ih (List.Pairwise.of_cons hS)
        (fun a' ha' => hin a' (by simp [ha'])) hcross, ?_⟩
    intro x hx y hy
    rw [List.mem_flatMap] at hy
    obtain ⟨b, hb, hyb⟩ := hy
    exact hcross a b (List.rel_of_pairwise_cons hS hb) x hx y hyb

/-- The unsorted candidate list is grouped by rule in rule-table order,
so rule indices are ascending along it. -/
theorem allMatches_ruleIdx_le (t : List Char) :
    List.Pairwise (fun a b : Cand => a.ruleIdx ≤ b.ruleIdx) (allMatches t) := by
  rw [allMatches]
  apply flatMap_pairwise _ rules_enum_le
  · intro ir _ x hx y hy
    rw [List.mem_map] at hx hy
    obtain ⟨mx, -, rfl⟩ := hx
    obtain ⟨my, -, rfl⟩ := hy
    simp
  · intro p q hpq x hx y hy
    rw [List.mem_map] at hx hy
    obtain ⟨mx, -, rfl⟩ := hx
    obtain ⟨my, -, rfl⟩ := hy
    simpa using hpq

/-- The sorted candidate list satisfies the full deterministic ordering:
start ascending, length descending on ties, rule-table position on
remaining ties (the last via stability of the sort). -/
theorem sortedCands_pairwise (t : List Char) :
    List.Pairwise candOrder (sortedCands t) :=
  foldl_insert_pairwise (allMatches_ruleIdx_le t) (by simp) (by simp)

/-- Disjointness of two half-open ranges (one entirely left of the
other). -/
def RDisj (r1 r2 : Nat × Nat) : Prop := r1.2 ≤ r2.1 ∨ r2.2 ≤ r1.1

/-- Well-formedness of an emitted part: an accepted match carries a rule
of the table and a payload at least two characters shorter than the
scanned text. -/
def SegOK (t : List Char) : Seg → Prop
  | Seg.lit _ => True
  | Seg.mtch cap r => r ∈ rules ∧ cap.length + 2 ≤ t.length

/-- Main invariant of the selection loop.  Given sound candidates sorted
by start offset and a consistent intermediate state (parts so far spell
out `t.take lastIndex`, accepted ranges are pairwise disjoint, nonempty,
start before all remaining candidates, and the last accepted range ends
at `lastIndex`), the final state still has: parts spelling
`t.take lastIndex`, `lastIndex` within the text, pairwise disjoint
accepted ranges, and well-formed parts. -/
theorem selLoop_main (t : List Char) :
    ∀ (cs : List Cand) (li : Nat) (ps : List Seg) (rs : List (Nat × Nat)),
      (∀ c ∈ cs, CandGood t c) →
      List.Pairwise (fun a b : Cand => a.index ≤ b.index) cs →
      (ps.map partText).flatten = t.take li →
      li ≤ t.length →
      List.Pairwise RDisj rs →
      (∀ r ∈ rs, r.1 < r.2) →
      (∀ r ∈ rs, ∀ c ∈ cs, r.1 ≤ c.index) →
      ((li = 0 ∧ rs = []) ∨ ∃ r ∈ rs, r.2 = li) →
      (∀ p ∈ ps, SegOK t p) →
      ((selLoop t cs li ps rs).1.map partText).flatten
          = t.take (selLoop t cs li ps rs).2.2 ∧
        (selLoop t cs li ps rs).2.2 ≤ t.length ∧
        List.Pairwise RDisj (selLoop t cs li ps rs).2.1 ∧
        ∀ p ∈ (selLoop t cs li ps rs).1, SegOK t p := by
  intro cs
  induction cs with
  | nil =>
    intro li ps rs _ _ hjoin hli hdisj _ _ _ hok
    simp only [selLoop]
    exact ⟨hjoin, hli, hdisj, hok⟩
  | cons c cs ih =>
    intro li ps rs hgood hsort hjoin hli hdisj hpos hstart hend hok
    obtain ⟨hmatch, henum⟩ := hgood c (by simp)
    obtain ⟨hdne0, hdlen0, hrr0⟩ := rules_enum_delim _ henum
    have hdne : c.rule.delim ≠ [] := hdne0
    have hdlen : 1 ≤ c.rule.delim.length := hdlen0
    have hrr : c.rule ∈ rules := hrr0
    have hma := matchAt_spec hdne hmatch
    have hlen : c.length = 2 * c.rule.delim.length + c.cap.length := hma.1
    have htake : (t.drop c.index).take c.length
        = c.rule.delim ++ c.cap ++ c.rule.delim := hma.2.1
    have hiend : c.index + c.length ≤ t.length := hma.2.2
    rw [selLoop]
    split
    · next hov =>
      exact ih li ps rs (fun c' hc' => hgood c' (by simp [hc']))
        (List.Pairwise.of_cons hsort) hjoin hli hdisj hpos
        (fun r hr c' hc' => hstart r hr c' (by simp [hc'])) hend hok
    · next hov =>
      have hovF : ∀ r ∈ rs,
          ¬(max c.index r.1 < min (c.index + c.length) r.2) := by
        intro r hr hcon
        exact hov (by
          rw [isOverlapping, List.any_eq_true]
          exact ⟨r, hr, by simpa using hcon⟩)
      have hlic : li ≤ c.index := by
        rcases hend with ⟨rfl, rfl⟩ | ⟨r, hr, hre⟩
        · omega
        · have h1 := hstart r hr c (by simp)
          have h2 := hovF r hr
          have h3 := hpos r hr
          omega
      have hjoin' :
          (((if li < c.index then
              ps ++ [Seg.lit ((t.drop li).take (c.index - li))]
            else ps) ++ [Seg.mtch c.cap c.rule]).map partText).flatten
            = t.take (c.index + c.length) := by
        have htc : t.take (c.index + c.length)
            = t.take c.index ++ (c.rule.delim ++ c.cap ++ c.rule.delim) := by
          rw [List.take_add, htake]
        by_cases hg : li < c.index
        · rw [if_pos hg]
          have htci : t.take c.index
              = t.take li ++ (t.drop li).take (c.index - li) := by
            have hx : c.index = li + (c.index - li) := by omega
            nth_rewrite 1 [hx]
            rw [List.take_add]
          simp only [List.map_append, List.flatten_append, List.map_cons,
            List.map_nil, List.flatten_cons, List.flatten_nil, partText,
            hjoin, htc, htci, List.append_assoc, List.append_nil]
        · rw [if_neg hg]
          have hx : li = c.index := by omega
          subst hx
          simp only [List.map_append, List.flatten_append, List.map_cons,
            List.map_nil, List.flatten_cons, List.flatten_nil, partText,
            hjoin, htc, List.append_assoc, List.append_nil]
      have hdisj' :
          List.Pairwise RDisj (rs ++ [(c.index, c.index + c.length)]) := by
        rw [List.pairwise_append]
        refine ⟨hdisj, by simp, ?_⟩
        intro r hr p hp
        obtain rfl := List.mem_singleton.mp hp
        have h2 := hovF r hr
        have h3 := hpos r hr
        unfold RDisj
        omega
      have hpos' : ∀ r ∈ rs ++ [(c.index, c.index + c.length)], r.1 < r.2 := by
        intro r hr
        rcases List.mem_append.mp hr with h | h
        · exact hpos r h
        · obtain rfl := List.mem_singleton.mp h
          simp only []
          omega
      have hstart' : ∀ r ∈ rs ++ [(c.index, c.index + c.length)],
          ∀ c' ∈ cs, r.1 ≤ c'.index := by
        intro r hr c' hc'
        rcases List.mem_append.mp hr with h | h
        · exact hstart r h c' (by simp [hc'])
        · obtain rfl := List.mem_singleton.mp h
          exact List.rel_of_pairwise_cons hsort hc'
      have hok' : ∀ p ∈ (if li < c.index then
            ps ++ [Seg.lit ((t.drop li).take (c.index - li))]
          else ps) ++ [Seg.mtch c.cap c.rule], SegOK t p := by
        intro p hp
        rcases List.mem_append.mp hp with h | h
        · split at h
          · rcases List.mem_append.mp h with h' | h'
            · exact hok p h'
            · obtain rfl := List.mem_singleton.mp h'
              exact True.intro
          · exact hok p h
        · obtain rfl := List.mem_singleton.mp h
          exact ⟨hrr, by omega⟩
      exact ih (c.index + c.length) _ _
        (fun c' hc' => hgood c' (by simp [hc']))
        (List.Pairwise.of_cons hsort) hjoin' hiend hdisj' hpos' hstart'
        (Or.inr ⟨(c.index, c.index + c.length), by simp, rfl⟩) hok'

/-- The selection loop of `applyRules`, run from its initial state. -/
theorem selLoop_init (t : List Char) :
    ((selLoop t (sortedCands t) 0 [] []).1.map partText).flatten
        = t.take (selLoop t (sortedCands t) 0 [] []).2.2 ∧
      (selLoop t (sortedCands t) 0 [] []).2.2 ≤ t.length ∧
      List.Pairwise RDisj (selLoop t (sortedCands t) 0 [] []).2.1 ∧
      ∀ p ∈ (selLoop t (sortedCands t) 0 [] []).1, SegOK t p := by
  apply selLoop_main
  · exact fun c hc => allMatches_good (sortedCands_mem hc)
  · exact (sortedCands_pairwise t).imp (fun {a b} h => by
      unfold candOrder at h; omega)
  · simp
  · simp
  · simp
  · simp
  · simp
  · exact Or.inl ⟨rfl, rfl⟩
  · simp

/-- Per recursion depth, the emitted parts cover the scanned text
exactly: literal parts contribute themselves, accepted matches their
delimiters plus payload, and the concatenation in order is the whole
text. -/
theorem partsOf_flatten (t : List Char) :
    ((partsOf t).map partText).flatten = t := by
  obtain ⟨hjoin, hli, -, -⟩ := selLoop_init t
  simp only [partsOf]
  split
  · next h =>
    rw [List.map_append, List.flatten_append, hjoin]
    simp only [List.map_cons, List.map_nil, List.flatten_cons,
      List.flatten_nil, partText, List.append_nil]
    exact List.take_append_drop _ t
  · next h =>
    rw [hjoin]
    have hx : (selLoop t (sortedCands t) 0 [] []).2.2 = t.length := by omega
    rw [hx, List.take_length]

/-- The accepted ranges of one invocation are pairwise disjoint. -/
theorem selectedRanges_disjoint (t : List Char) :
    List.Pairwise RDisj (selectedRanges t) :=
  (selLoop_init t).2.2.1

/-- Every part of one invocation is well formed. -/
theorem partsOf_ok (t : List Char) : ∀ p ∈ partsOf t, SegOK t p := by
  obtain ⟨-, -, -, hok⟩ := selLoop_init t
  intro p hp
  simp only [partsOf] at hp
  split at hp
  · rcases List.mem_append.mp hp with h | h
    · exact hok p h
    · obtain rfl := List.mem_singleton.mp h
      exact True.intro
  · exact hok p hp

/-- A match part's rule is from the table and its payload is at least two
characters shorter than the scanned text. -/
theorem partsOf_mtch {t cap : List Char} {r : Rule}
    (h : Seg.mtch cap r ∈ partsOf t) : r ∈ rules ∧ cap.length + 2 ≤ t.length :=
  partsOf_ok t _ h

/-- Mapping a list through an `Option`-valued function that succeeds
pointwise succeeds as a whole. -/
theorem mapM_eq_some {α β : Type} {f : α → Option β} {g : α → β} :
    ∀ {l : List α}, (∀ a ∈ l, f a = some (g a)) → l.mapM f = some (l.map g) := by
  intro l
  induction l with
  | nil => intro _; rfl
  | cons a l ih =>
    intro h
    rw [List.mapM_cons, h a (by simp), ih (fun a' ha' => h a' (by simp [ha']))]
    rfl

/-- Fuel strictly above the text length is enough for the fuel-indexed
resolver, and its value is then the `map` of `emitPart` over the parts:
exactly the recursion of the source, which descends only into strictly
shorter payloads. -/
theorem resolveO_sufficient :
    ∀ (n : Nat) (t : List Char), t.length ≤ n → ∀ f, t.length < f →
      resolveO f t = some ((partsOf t).map emitPart) := by
  intro n
  induction n with
  | zero =>
    intro t ht f hf
    have ht0 : t = [] := by
      cases t with
      | nil => rfl
      | cons a l => simp at ht
    subst ht0
    obtain ⟨f', rfl⟩ : ∃ f', f = f' + 1 := ⟨f - 1, by omega⟩
    rw [resolveO]
    rfl
  | succ n ih =>
    intro t ht f hf
    obtain ⟨f', rfl⟩ : ∃ f', f = f' + 1 := ⟨f - 1, by omega⟩
    rw [resolveO]
    apply mapM_eq_some
    intro p hp
    cases p with
    | lit s => rfl
    | mtch cap r =>
      have hlt := (partsOf_mtch hp).2
      have hres : resolve cap = (partsOf cap).map emitPart := by
        rw [resolve, ih cap (by omega) (cap.length + 1) (by omega)]
        rfl
      show (resolveO f' cap).map (RNode.elem (tagOf r) r.style)
          = some (emitPart (Seg.mtch cap r))
      rw [ih cap (by omega) f' (by omega)]
      simp [emitPart, hres]

/-- `resolve` satisfies the recursion equation of `applyRules`: emit a
text node per literal part and a recursively resolved container per
match part. -/
theorem resolve_unfold (t : List Char) :
    resolve t = (partsOf t).map emitPart := by
  rw [resolve, resolveO_sufficient t.length t le_rfl (t.length + 1) (by omega)]
  rfl

/-- Any fuel strictly above the text length computes `resolve`. -/
theorem resolveO_eq_resolve {t : List Char} {f : Nat} (hf : t.length < f) :
    resolveO f t = some (resolve t) := by
  rw [resolveO_sufficient t.length t le_rfl f hf, resolve_unfold]

theorem reconstructList_eq (ns : List RNode) :
    reconstructList ns = (ns.map reconstruct).flatten := by
  induction ns with
  | nil => rfl
  | cons n ns ih => rw [reconstructList, ih]; simp

/-- Looking up a rule's delimiter from its rendered tag and style gives
back the rule's delimiter, for every rule of the table. -/
theorem delimOfTag_rule : ∀ r ∈ rules, delimOfTag (tagOf r) r.style = r.delim := by
  decide

/-- Full recursive round trip: reinserting every selected match's
delimiter pair around its recursively reconstructed children yields the
input text back; equivalently, the leaf literal characters are exactly
the input minus the selected delimiters. -/
theorem reconstruct_resolve :
    ∀ (n : Nat) (t : List Char), t.length ≤ n →
      reconstructList (resolve t) = t := by
  intro n
  induction n with
  | zero =>
    intro t ht
    have ht0 : t = [] := by
      cases t with
      | nil => rfl
      | cons a l => simp at ht
    subst ht0
    rfl
  | succ n ih =>
    intro t ht
    rw [resolve_unfold, reconstructList_eq, List.map_map]
    have hcongr : ∀ p ∈ partsOf t, (reconstruct ∘ emitPart) p = partText p := by
      intro p hp
      cases p with
      | lit s => rfl
      | mtch cap r =>
        obtain ⟨hrr, hlt⟩ := partsOf_mtch hp
        show reconstruct (RNode.elem (tagOf r) r.style (resolve cap))
            = r.delim ++ cap ++ r.delim
        rw [reconstruct, delimOfTag_rule r hrr, ih cap (by omega)]
    rw [List.map_congr_left hcongr]
    exact partsOf_flatten t

/-- Rule-table entry at position 2 is the `**` (strong) rule. -/
theorem rules_enum_idx2 :
    ∀ p ∈ rules.enum, p.1 = 2 → p.2 = ⟨"**".toList, some "strong", none⟩ := by
  decide

/-- Rule-table entry at position 3 is the `*` (emphasis) rule. -/
theorem rules_enum_idx3 :
    ∀ p ∈ rules.enum, p.1 = 3 → p.2 = ⟨"*".toList, some "em", none⟩ := by
  decide

/-- Where a `**` match starts, the text begins with two asterisks, so any
lazy `*` match at the same position closes immediately: the `**` match
has length at least 4 while the `*` match has length exactly 2. -/
theorem em_match_at_strong_open {t : List Char} {i : Nat} {m2 : Nat × List Char}
    (hb : matchAt ['*', '*'] t i = some m2) :
    4 ≤ m2.1 ∧
      ∀ m1 : Nat × List Char, matchAt ['*'] t i = some m1 → m1.1 = 2 := by
  have hspec := matchAt_spec (by decide) hb
  have hlen := hspec.1
  simp only [List.length_cons, List.length_nil] at hlen
  constructor
  · omega
  · intro m1 hm1
    have hsplit : t.drop i
        = '*' :: '*' :: (m2.2 ++ '*' :: '*' :: (t.drop i).drop m2.1) := by
      conv_lhs => rw [← List.take_append_drop m2.1 (t.drop i)]
      rw [hspec.2.1]
      simp
    have hpre : (['*'] : List Char).isPrefixOf (t.drop i) = true := by
      rw [hsplit]
      simp [List.isPrefixOf]
    have hdrop1 : t.drop (i + 1)
        = '*' :: (m2.2 ++ '*' :: '*' :: (t.drop i).drop m2.1) := by
      conv_lhs => rw [← List.drop_drop, hsplit]
      rfl
    have hlc : lazyClose ['*'] (t.drop (i + 1)) = some [] := by
      rw [hdrop1, lazyClose]
      simp [List.isPrefixOf]
    have hcomp : matchAt ['*'] t i = some (2, []) := by
      rw [matchAt, if_pos hpre]
      simp only [List.length_cons, List.length_nil, Nat.zero_add]
      rw [hlc]
      rfl
    rw [hcomp] at hm1
    obtain rfl := Option.some.inj hm1
    rfl

/-- C1: at every recursion depth the emitted literal spans and selected
match spans cover the scanned text exactly, in order, with no gaps and no
overlaps (`partText` renders a literal part as itself and a match part as
delimiter, payload, delimiter); and over the full recursive output the
concatenation of all leaf literal characters equals the input text with
exactly the selected matches' delimiter characters removed: reinserting
each selected delimiter pair around its container (`reconstructList`)
rebuilds the input text, so selected delimiters never appear in leaf
text and every other character does. -/
theorem claim1_round_trip (t : List Char) :
    ((partsOf t).map partText).flatten = t ∧
      reconstructList (resolve t) = t :=
  ⟨partsOf_flatten t, reconstruct_resolve t.length t le_rfl⟩

/-- C2: before selection the candidate list is ordered by start offset
ascending, ties broken by match length descending, and remaining ties
(same offset and length) broken by rule-table position with the earlier
rule first; in particular a `**` (rule index 2) candidate starting at the
same offset as a `*` (rule index 3) candidate is always considered
first. -/
theorem claim2_candidate_order (t : List Char) :
    List.Pairwise candOrder (sortedCands t) ∧
      List.Pairwise
        (fun a b : Cand => a.index = b.index → b.ruleIdx = 2 → a.ruleIdx ≠ 3)
        (sortedCands t) := by
  refine ⟨sortedCands_pairwise t, ?_⟩
  refine List.Pairwise.imp_of_mem ?_ (sortedCands_pairwise t)
  intro a b ha hb hord
  intro hidx hb2 ha3
  obtain ⟨hma, hea⟩ := allMatches_good (sortedCands_mem ha)
  obtain ⟨hmb, heb⟩ := allMatches_good (sortedCands_mem hb)
  have hra : a.rule = ⟨"*".toList, some "em", none⟩ := rules_enum_idx3 _ hea ha3
  have hrb : b.rule = ⟨"**".toList, some "strong", none⟩ :=
    rules_enum_idx2 _ heb hb2
  rw [hra] at hma
  rw [hrb] at hmb
  have hmb' : matchAt ['*', '*'] t b.index = some (b.length, b.cap) := hmb
  have hma' : matchAt ['*'] t b.index = some (a.length, a.cap) := by
    rw [← hidx]; exact hma
  obtain ⟨hb4, hforce⟩ := em_match_at_strong_open hmb'
  have hb4' : 4 ≤ b.length := hb4
  have ha2 : a.length = 2 := hforce _ hma'
  unfold candOrder at hord
  omega

/-- C3: the selected ranges of one recursion depth are pairwise disjoint
over character offsets: no position `k` lies in two accepted `[start,
end)` intervals. -/
theorem claim3_ranges_disjoint (t : List Char) :
    List.Pairwise
      (fun r1 r2 : Nat × Nat =>
        ∀ k, ¬(r1.1 ≤ k ∧ k < r1.2 ∧ r2.1 ≤ k ∧ k < r2.2))
      (selectedRanges t) :=
  (selectedRanges_disjoint t).imp (fun {r1 r2} h => by
    unfold RDisj at h
    intro k
    omega)

/-- C4 counterexample: resolving `"**oops"` does not yield a single
literal node with the text unchanged — the `*` rule's lazy pattern
matches the two adjacent asterisks as an empty emphasis. -/
theorem claim4_counterexample :
    resolve "**oops".toList ≠ [RNode.text "**oops".toList] := by
  have h : resolve "**oops".toList
      = [RNode.elem "em" none [], RNode.text "oops".toList] := rfl
  rw [h]
  intro hc
  exact RNode.noConfusion (List.cons.inj hc).1

/-- C4 amended: resolving `"**oops"` yields an empty emphasis container
(the two adjacent asterisks form a `*...*` match with empty payload)
followed by the literal node `"oops"`; the unterminated `**` is not kept
as literal text. -/
theorem claim4_amended :
    resolve "**oops".toList
      = [RNode.elem "em" none [], RNode.text "oops".toList] := rfl

/-- C5 counterexample: the empty input has no candidate match of any
rule, yet `resolve` returns zero nodes rather than exactly one literal
node. -/
theorem claim5_counterexample :
    allMatches "".toList = [] ∧ resolve "".toList = [] ∧
      resolve "".toList ≠ [RNode.text "".toList] := by
  refine ⟨rfl, rfl, ?_⟩
  intro hc
  have h : resolve "".toList = [] := rfl
  rw [h] at hc
  exact List.noConfusion hc

/-- C5 amended: for every nonempty input text on which the discovery
phase finds no candidate match of any rule, `resolve` returns exactly one
render node, a literal node carrying the input unchanged. -/
theorem claim5_amended (t : List Char) (h0 : t ≠ []) (hm : allMatches t = []) :
    resolve t = [RNode.text t] := by
  have hs : sortedCands t = [] := by rw [sortedCands, hm]; rfl
  have hp : partsOf t = [Seg.lit t] := by
    simp only [partsOf, hs, selLoop]
    rw [if_pos (by simpa using List.length_pos.mpr h0)]
    simp
  rw [resolve_unfold, hp]
  rfl

theorem claim5_witness :
    "a".toList ≠ [] ∧ allMatches "a".toList = [] ∧
      resolve "a".toList = [RNode.text "a".toList] :=
  ⟨by decide, by decide, claim5_amended _ (by decide) (by decide)⟩

/-- C6: resolving `"**bold *and italic*__too__**"` yields a single strong
container whose children are, in order, the literal `"bold "`, an
emphasis container with `"and italic"`, and an underline container with
`"too"` — the recursive call into the strong payload re-discovers the
nested emphasis and underline markers. -/
theorem claim6_nesting :
    resolve "**bold *and italic*__too__**".toList
      = [RNode.elem "strong" none
          [RNode.text "bold ".toList,
           RNode.elem "em" none [RNode.text "and italic".toList],
           RNode.elem "u" none [RNode.text "too".toList]]] := rfl

/-- C7: the zero-length payload input `"****"` produces exactly one
styled container, a strong container with no children, not an error and
not literal output. -/
theorem claim7_empty_payload :
    resolve "****".toList = [RNode.elem "strong" none []] := rfl

/-- C8: the resolver is total — for every input text the fuel-indexed
computation with fuel `length + 1` completes with a value (never the
`none` that models a non-terminating or crashing run), and `resolve`
returns that value. -/
theorem claim8_total (t : List Char) :
    ∃ ns, resolveO (t.length + 1) t = some ns ∧ resolve t = ns :=
  ⟨resolve t, resolveO_eq_resolve (by omega), rfl⟩

/-- C9: termination — every recursive invocation operates on a strictly
smaller substring (the captured payload, which excludes the match's own
delimiters), and consequently recursion depth is bounded by the input
length: any fuel strictly above the input length computes `resolve`. -/
theorem claim9_termination :
    (∀ (t cap : List Char) (r : Rule),
        Seg.mtch cap r ∈ partsOf t → cap.length < t.length) ∧
      ∀ (t : List Char) (f : Nat), t.length < f →
        resolveO f t = some (resolve t) :=
  ⟨fun t cap r h => by have := (partsOf_mtch h).2; omega,
   fun t f hf => resolveO_eq_resolve hf⟩

theorem claim9_witness :
    (("a".toList).length < ("*a*".toList).length ∧
        resolveO 4 "*a*".toList = some (resolve "*a*".toList)) :=
  ⟨claim9_termination.1 "*a*".toList "a".toList
      ⟨"*".toList, some "em", none⟩ (by decide),
   claim9_termination.2 "*a*".toList 4 (by decide)⟩

/-- C10: the empty input produces the empty node sequence — no candidate
can match and there is no trailing text, so no literal node is created. -/
theorem claim10_empty_input : resolve "".toList = [] := rfl
